import Mathlib

/-!
Shallow embedding of the chapter-3 resource scheduler
(`src/chapter3/src/tracking_access.rs`).

Type identities (`std::any::TypeId`) are modelled as naturals; a type-erased
boxed value (`Box<dyn Any>`) is a pair of the dynamic type identity and a
payload. `HashMap`s are modelled as partial functions from keys. Fatal
run-time failures (assert/unwrap failures and indexing a missing key) are
modelled with `Except`, whose error value carries the state the program
left behind when it failed, since unwinding does not undo mutations.

Execution also emits an event trace (declare steps, materializations, and
body invocations) so that temporal claims about the order of these steps
can be stated.
-/

namespace TrackingAccess

/-- Access mode, from `enum Access { Read, Write }`. -/
inductive Access where
  | Read
  | Write
deriving DecidableEq, Repr

/-- A runtime type identity (`std::any::TypeId`), abstracted as a natural. -/
abbrev TypeId := Nat

/-- The access ledger, `type AccessMap = HashMap<TypeId, Access>`. -/
abbrev AccessMap := TypeId → Option Access

/-- HashMap insertion (replaces any existing entry for the key). -/
def AccessMap.insert (m : AccessMap) (t : TypeId) (a : Access) : AccessMap :=
  fun u => if u = t then some a else m u

/-- The empty ledger; also the result of `HashMap::clear`. -/
def AccessMap.empty : AccessMap := fun _ => none

/-- A type-erased boxed value, `Box<dyn Any>`: its dynamic type identity
plus its payload (payloads are modelled as integers). A downcast to the
type with identity `t` succeeds exactly when `tid = t`. -/
structure BoxAny where
  tid : TypeId
  val : Int
deriving DecidableEq, Repr

/-- The resource store, `type TypeMap = HashMap<TypeId, UnsafeCell<Box<dyn Any>>>`. -/
abbrev TypeMap := TypeId → Option BoxAny

/-- HashMap insertion for the store (replaces any existing entry). -/
def TypeMap.insert (s : TypeMap) (t : TypeId) (b : BoxAny) : TypeMap :=
  fun u => if u = t then some b else s u

/-- The empty store. -/
def TypeMap.empty : TypeMap := fun _ => none

/-- Writing through a `ResMut<T>`'s `&mut T`: replaces the payload of the
cell at `t`, keeping the box's dynamic type identity (a `&mut T` cannot
change the dynamic type of the box). Missing entries are untouched. -/
def TypeMap.setVal (s : TypeMap) (t : TypeId) (v : Int) : TypeMap :=
  fun u => if u = t then (s u).map (fun b => ⟨b.tid, v⟩) else s u

/-- A `SystemParam` occurring in a system signature: either `Res<T>`
(shared view) or `ResMut<T>` (exclusive view) of the type with identity `t`. -/
inductive Param where
  | res (t : TypeId)
  | resMut (t : TypeId)
deriving DecidableEq, Repr

/-- The target type identity of a parameter. -/
def Param.tid : Param → TypeId
  | .res t => t
  | .resMut t => t

/-- The access mode a parameter declares: `Read` for `Res`, `Write` for `ResMut`. -/
def Param.mode : Param → Access
  | .res _ => .Read
  | .resMut _ => .Write

/-- The data carried by a conflict diagnostic: the offending type identity,
the mode already held in the ledger, and the mode being requested. The
source's panic messages name the type (`type_name::<T>`) and distinguish
"mutably and immutably" from "mutably twice", which determines this triple. -/
structure Conflict where
  tid : TypeId
  held : Access
  req : Access
deriving DecidableEq, Repr

/-- `SystemParam::accesses` for `Res` and `ResMut`
(`tracking_access.rs` lines 106-114 and 136-148).

For `Res<T>`: `access.entry(TypeId::of::<T>()).or_insert(Access::Read)`
followed by an assertion that the resulting mode is `Read`; on assertion
failure the map is left as it was (the existing `Write` entry is kept).

For `ResMut<T>`: `access.insert(TypeId::of::<T>(), Access::Write)`,
then a panic if the key was previously present with any mode; the insertion
has already happened when the panic fires, so the error state carries the
updated map. The error also carries the conflict diagnostic. -/
def Param.accesses : Param → AccessMap → Except (Conflict × AccessMap) AccessMap
  | .res t, m =>
    match m t with
    | none => .ok (m.insert t .Read)
    | some .Read => .ok m
    | some .Write => .error (⟨t, .Write, .Read⟩, m)
  | .resMut t, m =>
    match m t with
    | none => .ok (m.insert t .Write)
    | some a => .error (⟨t, a, .Write⟩, m.insert t .Write)

/-- The two fatal failure modes of `SystemParam::retrieve`: indexing the
store with a never-inserted `TypeId` (`resources[&TypeId::of::<T>()]`), and
a failed downcast (`downcast_ref::<T>().unwrap()`). -/
inductive RetrieveErr where
  | missing (t : TypeId)
  | mismatch (t : TypeId)
deriving DecidableEq, Repr

/-- `SystemParam::retrieve` (`tracking_access.rs` lines 116-129 and
150-163): index the store by the parameter's type identity (fatal if
absent), then downcast the boxed value (fatal if the dynamic type does not
match), producing the payload. `Res` and `ResMut` retrieve identically;
they differ only in the kind of view handed to the body. -/
def Param.retrieve (p : Param) (s : TypeMap) : Except RetrieveErr Int :=
  match s p.tid with
  | none => .error (.missing p.tid)
  | some b => if b.tid = p.tid then .ok b.val else .error (.mismatch p.tid)

/-- An event of a round's execution trace: system `i` declaring the access
of its `j`-th parameter, system `i` materializing its `j`-th parameter and
obtaining value `v`, or system `i`'s callable body being invoked with the
materialized values. -/
inductive Ev where
  | decl (i j : Nat)
  | retrieve (i j : Nat) (v : Int)
  | callBody (i : Nat) (args : List Int)
deriving DecidableEq, Repr

/-- The index of the system an event belongs to. -/
def Ev.sysIdx : Ev → Nat
  | .decl i _ => i
  | .retrieve i _ _ => i
  | .callBody i _ => i

/-- Whether an event is a declare step. -/
def Ev.isDecl : Ev → Bool
  | .decl _ _ => true
  | _ => false

/-- Whether an event is a materialization step. -/
def Ev.isRetrieve : Ev → Bool
  | .retrieve _ _ _ => true
  | _ => false

/-- The declare phase of `impl_system!`'s `run` (`tracking_access.rs`
lines 33-35): `$params::accesses(accesses)` for each parameter in order,
stopping at the first conflict. `i` is the running system's index and `j`
the index of the first parameter of `ps`, used only for trace events. -/
def accessesAll (i j : Nat) :
    List Param → AccessMap → List Ev × Except (Conflict × AccessMap) AccessMap
  | [], m => ([], .ok m)
  | p :: ps, m =>
    match p.accesses m with
    | .error e => ([.decl i j], .error e)
    | .ok m₁ =>
      let r := accessesAll i (j + 1) ps m₁
      (.decl i j :: r.1, r.2)

/-- The materialization phase of `impl_system!`'s `run` (`tracking_access.rs`
lines 40-42): `$params::retrieve(resources)` for each parameter in order,
stopping at the first fatal retrieval failure. -/
def retrieveAll (i j : Nat) :
    List Param → TypeMap → List Ev × Except RetrieveErr (List Int)
  | [], _ => ([], .ok [])
  | p :: ps, s =>
    match p.retrieve s with
    | .error e => ([], .error e)
    | .ok v =>
      let r := retrieveAll i (j + 1) ps s
      (.retrieve i j v :: r.1, r.2.map (fun vs => v :: vs))

/-- A registered system: its ordered parameter list together with its
callable body. The body is modelled as a function from the materialized
values (one per parameter, in order) to the final values the body leaves in
its parameters; only the values at exclusive-view positions are written
back to the store, since a shared view cannot mutate. -/
structure Sys where
  params : List Param
  body : List Int → List Int

/-- Applying the mutations a body performed through its exclusive views:
for each `ResMut` parameter, the corresponding final value replaces the
payload of that type's cell. Shared-view positions change nothing. -/
def writeBack (s : TypeMap) : List Param → List Int → TypeMap
  | [], _ => s
  | _ :: _, [] => s
  | p :: ps, v :: vs =>
    match p with
    | .res _ => writeBack s ps vs
    | .resMut t => writeBack (s.setVal t v) ps vs

/-- A fatal error of a round: a ledger conflict, or a fatal retrieval
failure (missing resource or identity mismatch). -/
inductive RunErr where
  | conflict (c : Conflict)
  | retrieval (e : RetrieveErr)
deriving DecidableEq, Repr

/-- `System::run` as generated by `impl_system!` (`tracking_access.rs`
lines 25-45): first every parameter declares its access, then (only if no
conflict fired) every parameter is materialized, then the callable body is
invoked with the materialized values. The result carries the event trace;
errors carry the store and ledger as left at the point of failure. -/
def Sys.run (sys : Sys) (i : Nat) (s : TypeMap) (m : AccessMap) :
    List Ev × Except (RunErr × TypeMap × AccessMap) (TypeMap × AccessMap) :=
  match accessesAll i 0 sys.params m with
  | (evs, .error (c, mPanic)) => (evs, .error (.conflict c, s, mPanic))
  | (evs, .ok m₁) =>
    match retrieveAll i 0 sys.params s with
    | (evs₂, .error e) => (evs ++ evs₂, .error (.retrieval e, s, m₁))
    | (evs₂, .ok vals) =>
      (evs ++ evs₂ ++ [.callBody i vals],
        .ok (writeBack s sys.params (sys.body vals), m₁))

/-- The loop of `Scheduler::run` (`tracking_access.rs` lines 243-245):
each system in order runs against the store and the shared ledger; a fatal
error aborts immediately, leaving the state as it was at the failure. `i`
is the index of the first system of the list, used for trace events. -/
def runSystems (i : Nat) :
    List Sys → TypeMap → AccessMap →
      List Ev × Except (RunErr × TypeMap × AccessMap) (TypeMap × AccessMap)
  | [], s, m => ([], .ok (s, m))
  | sys :: rest, s, m =>
    match sys.run i s m with
    | (evs, .error e) => (evs, .error e)
    | (evs, .ok (s₁, m₁)) =>
      let r := runSystems (i + 1) rest s₁ m₁
      (evs ++ r.1, r.2)

/-- The scheduler state (`struct Scheduler`): the registered systems, the
resource store and the access ledger. -/
structure Scheduler where
  systems : List Sys
  resources : TypeMap
  accesses : AccessMap

/-- `Scheduler::run` (`tracking_access.rs` lines 242-247): run every
system in registration order, then — only when every system completed —
clear the ledger. On a fatal error the clear step is skipped and the error
carries the scheduler exactly as the abort left it. -/
def Scheduler.run (sch : Scheduler) :
    List Ev × Except (RunErr × Scheduler) Scheduler :=
  match runSystems 0 sch.systems sch.resources sch.accesses with
  | (evs, .error (e, s, m)) => (evs, .error (e, ⟨sch.systems, s, m⟩))
  | (evs, .ok (s, _)) => (evs, .ok ⟨sch.systems, s, AccessMap.empty⟩)

/-- `Scheduler::add_resource` (`tracking_access.rs` lines 253-257): insert
the value, keyed by its own type identity, replacing any existing entry of
that type. The stored box's dynamic type identity is the key itself. -/
def Scheduler.addResource (sch : Scheduler) (t : TypeId) (v : Int) : Scheduler :=
  { sch with resources := sch.resources.insert t ⟨t, v⟩ }

/-- `Scheduler::add_system` (`tracking_access.rs` lines 249-251): append a
system to the ordered list. -/
def Scheduler.addSystem (sch : Scheduler) (sys : Sys) : Scheduler :=
  { sch with systems := sch.systems ++ [sys] }

/-- A sequence of `add_resource` calls, applied in order. -/
def applyAdds : List (TypeId × Int) → Scheduler → Scheduler
  | [], sch => sch
  | (t, v) :: rest, sch => applyAdds rest (sch.addResource t v)

/-- The shape of a store: which type identities are present, and the
dynamic type identity each cell holds. Payload writes do not change it. -/
def TypeMap.shape (s : TypeMap) : TypeId → Option TypeId :=
  fun t => (s t).map BoxAny.tid

/-- A well-typed store: every cell holds a value whose dynamic type
identity is the key it is stored under. -/
def TypeMap.Wf (s : TypeMap) : Prop :=
  ∀ t b, s t = some b → b.tid = t

/-- Whether a round result is a success. -/
def okB {α β : Type} : Except α β → Bool
  | .ok _ => true
  | .error _ => false

/-- Whether a round result is a conflict failure. -/
def conflictedB : Except (RunErr × Scheduler) Scheduler → Bool
  | .error (.conflict _, _) => true
  | _ => false

/-- The conflict diagnostic of a round result (junk default when the round
did not fail with a conflict). -/
def conflictOf (r : List Ev × Except (RunErr × Scheduler) Scheduler) : Conflict :=
  match r.2 with
  | .error (.conflict c, _) => c
  | _ => ⟨0, .Read, .Read⟩

/-- The error of a failed round (junk default on success). -/
def runErrOf (r : List Ev × Except (RunErr × Scheduler) Scheduler) : RunErr :=
  match r.2 with
  | .error (e, _) => e
  | .ok _ => .conflict ⟨0, .Read, .Read⟩

/-- The scheduler state a failed round left behind (the success state on
success). -/
def errSchedOf (r : List Ev × Except (RunErr × Scheduler) Scheduler) : Scheduler :=
  match r.2 with
  | .error (_, sch) => sch
  | .ok sch => sch

/-- Whether an event is an invocation of system `i`'s body. -/
def Ev.isBodyOf (i : Nat) : Ev → Bool
  | .callBody k _ => k = i
  | _ => false

/-- Whether every declare event of a trace precedes every materialization
event: no declare event occurs after a materialization event. -/
def declsBeforeRetrieves : List Ev → Bool
  | [] => true
  | ev :: rest =>
    (!ev.isRetrieve || rest.all (fun e => !e.isDecl)) && declsBeforeRetrieves rest

/-! Conflict-time ledger lemmas and further run inversions. -/

/-- A round whose second system redeclares `Write` on type `0` and
therefore conflicts with the first system's exclusive view. -/
def cexDoubleWrite : Scheduler :=
  ⟨[⟨[Param.resMut 0], fun vs => vs.map (fun v => v + 1)⟩,
      ⟨[Param.resMut 0], fun vs => vs⟩],
    TypeMap.empty.insert 0 ⟨0, 5⟩, AccessMap.empty⟩

/-- A conflict-free round of two reader systems over distinct types;
its trace interleaves phases across systems. -/
def twoReadersRound : Scheduler :=
  ⟨[⟨[Param.res 0], fun _ => []⟩, ⟨[Param.res 1], fun _ => []⟩],
    (TypeMap.empty.insert 0 ⟨0, 5⟩).insert 1 ⟨1, 6⟩, AccessMap.empty⟩

/-- A one-entry store used in concrete conflict instances. -/
def oneCellStore : TypeMap := TypeMap.empty.insert 0 ⟨0, 1⟩

/-- A ledger already holding type `0` as `Write`. -/
def heldWriteLedger : AccessMap := AccessMap.empty.insert 0 .Write

/-- A conflict-free single-reader round. -/
def readerRound : Scheduler :=
  ⟨[⟨[Param.res 0], fun _ => []⟩], TypeMap.empty.insert 0 ⟨0, 7⟩,
    AccessMap.empty⟩

/-- A round requesting a type that was never registered. -/
def missingResRound : Scheduler :=
  ⟨[⟨[Param.res 0], fun _ => []⟩], TypeMap.empty, AccessMap.empty⟩

/-- Writer-then-reader round on the same type: an exclusive-view
incrementer followed in registration order by a shared-view reader. -/
def writeThenReadRound : Scheduler :=
  ⟨[⟨[Param.resMut 0], fun vs => vs.map (fun v => v + 1)⟩,
      ⟨[Param.res 0], fun _ => []⟩],
    TypeMap.empty.insert 0 ⟨0, 7⟩, AccessMap.empty⟩

theorem shape_setVal (s : TypeMap) (t : TypeId) (v : Int) :
    (s.setVal t v).shape = s.shape := by
  funext u
  simp only [TypeMap.shape, TypeMap.setVal]
  by_cases h : u = t
  · subst h
    cases s u <;> simp
  · simp [h]

theorem shape_writeBack (ps : List Param) :
    ∀ (vs : List Int) (s : TypeMap), (writeBack s ps vs).shape = s.shape := by
  induction ps with
  | nil => intro vs s; simp [writeBack]
  | cons p ps ih =>
    intro vs s
    cases vs with
    | nil => simp [writeBack]
    | cons v vs =>
      cases p with
      | res t => simpa [writeBack] using ih vs s
      | resMut t =>
        calc (writeBack (s.setVal t v) ps vs).shape
            = (s.setVal t v).shape := ih vs _
          _ = s.shape := shape_setVal s t v

theorem wf_setVal {s : TypeMap} (hs : s.Wf) (t : TypeId) (v : Int) :
    (s.setVal t v).Wf := by
  intro u b hb
  simp only [TypeMap.setVal] at hb
  by_cases h : u = t
  · subst h
    cases hu : s u with
    | none => simp [hu] at hb
    | some b₀ =>
      simp [hu] at hb
      have := hs u b₀ hu
      simp [← hb, this]
  · exact hs u b (by simpa [h] using hb)

theorem wf_writeBack (ps : List Param) :
    ∀ (vs : List Int) (s : TypeMap), s.Wf → (writeBack s ps vs).Wf := by
  induction ps with
  | nil => intro vs s hs; simpa [writeBack] using hs
  | cons p ps ih =>
    intro vs s hs
    cases vs with
    | nil => simpa [writeBack] using hs
    | cons v vs =>
      cases p with
      | res t => simpa [writeBack] using ih vs s hs
      | resMut t => exact ih vs _ (wf_setVal hs t v)

theorem wf_of_shape_eq {s s' : TypeMap} (h : s'.shape = s.shape) (hs : s.Wf) :
    s'.Wf := by
  intro t b hb
  have h1 : s'.shape t = s.shape t := by rw [h]
  simp only [TypeMap.shape, hb, Option.map] at h1
  cases hu : s t with
  | none => simp [hu] at h1
  | some b₀ =>
    simp [hu] at h1
    rw [h1]
    exact hs t b₀ hu

/-! Declare-phase lemmas. -/

/-- A successful declare preserves an existing `Write` entry. -/
theorem accesses_ok_preserves_write {p : Param} {m m₁ : AccessMap} {t : TypeId}
    (h : p.accesses m = .ok m₁) (hw : m t = some .Write) : m₁ t = some .Write := by
  cases p with
  | res u =>
    simp only [Param.accesses] at h
    cases hu : m u with
    | none =>
      simp only [hu] at h
      cases h
      simp only [AccessMap.insert]
      by_cases he : t = u
      · subst he; rw [hu] at hw; cases hw
      · simp [he, hw]
    | some a =>
      cases a with
      | Read => simp only [hu] at h; cases h; exact hw
      | Write => simp [hu] at h
  | resMut u =>
    simp only [Param.accesses] at h
    cases hu : m u with
    | none =>
      simp only [hu] at h
      cases h
      simp only [AccessMap.insert]
      by_cases he : t = u
      · subst he; rw [hu] at hw; cases hw
      · simp [he, hw]
    | some a => simp [hu] at h

/-- The whole declare phase preserves an existing `Write` entry. -/
theorem accessesAll_ok_preserves_write {ps : List Param} :
    ∀ {i j : Nat} {m m₁ : AccessMap} {t : TypeId},
      (accessesAll i j ps m).2 = .ok m₁ → m t = some .Write → m₁ t = some .Write := by
  induction ps with
  | nil => intro i j m m₁ t h hw; simp only [accessesAll] at h; cases h; exact hw
  | cons p ps ih =>
    intro i j m m₁ t h hw
    simp only [accessesAll] at h
    cases hp : p.accesses m with
    | error e => rw [hp] at h; simp at h
    | ok m₂ =>
      rw [hp] at h
      simp only [] at h
      exact ih h (accesses_ok_preserves_write hp hw)

/-- After a successful declare phase containing an exclusive view of `t`,
the ledger holds `t ↦ Write`. -/
theorem accessesAll_ok_writes {ps : List Param} :
    ∀ {i j : Nat} {m m₁ : AccessMap} {t : TypeId},
      (accessesAll i j ps m).2 = .ok m₁ → Param.resMut t ∈ ps → m₁ t = some .Write := by
  induction ps with
  | nil => intro i j m m₁ t _ hmem; cases hmem
  | cons p ps ih =>
    intro i j m m₁ t h hmem
    simp only [accessesAll] at h
    cases hp : p.accesses m with
    | error e => rw [hp] at h; simp at h
    | ok m₂ =>
      rw [hp] at h
      simp only [] at h
      rcases List.mem_cons.mp hmem with heq | hmem'
      · subst heq
        simp only [Param.accesses] at hp
        cases hu : m t with
        | none =>
          rw [hu] at hp
          cases hp
          exact accessesAll_ok_preserves_write h (by simp [AccessMap.insert])
        | some a => rw [hu] at hp; cases hp
      · exact ih h hmem'

/-- Declaring any access to a type held as `Write` fails. -/
theorem accesses_conflict_of_write {p : Param} {m : AccessMap} {t : TypeId}
    (hw : m t = some .Write) (ht : p.tid = t) :
    ∃ c mP, p.accesses m = .error (c, mP) ∧ c.tid = t := by
  cases p with
  | res u =>
    simp only [Param.tid] at ht
    subst ht
    exact ⟨⟨u, .Write, .Read⟩, m, by simp [Param.accesses, hw], rfl⟩
  | resMut u =>
    simp only [Param.tid] at ht
    subst ht
    exact ⟨⟨u, .Write, .Write⟩, m.insert u .Write, by simp [Param.accesses, hw], rfl⟩

/-- A declare phase containing any parameter targeting a type held as
`Write` fails with a conflict. -/
theorem accessesAll_conflict_of_write {ps : List Param} :
    ∀ {i j : Nat} {m : AccessMap} {t : TypeId} {p : Param},
      m t = some .Write → p ∈ ps → p.tid = t →
      ∃ c mP, (accessesAll i j ps m).2 = .error (c, mP) := by
  induction ps with
  | nil => intro i j m t p _ hmem; cases hmem
  | cons q ps ih =>
    intro i j m t p hw hmem ht
    rcases List.mem_cons.mp hmem with heq | hmem'
    · subst heq
      obtain ⟨c, mP, herr, _⟩ := accesses_conflict_of_write hw ht
      exact ⟨c, mP, by simp [accessesAll, herr]⟩
    · cases hq : q.accesses m with
      | error e => exact ⟨e.1, e.2, by simp [accessesAll, hq]⟩
      | ok m₂ =>
        obtain ⟨c, mP, herr⟩ :=
          @ih i (j + 1) m₂ t p (accesses_ok_preserves_write hq hw) hmem' ht
        exact ⟨c, mP, by simp [accessesAll, hq, herr]⟩

/-! Materialization-phase lemmas. -/

theorem retrieve_ok_of_shape {p : Param} {s : TypeMap}
    (h : s.shape p.tid = some p.tid) : ∃ v, p.retrieve s = .ok v := by
  simp only [TypeMap.shape] at h
  cases hu : s p.tid with
  | none => simp [hu] at h
  | some b =>
    simp [hu] at h
    exact ⟨b.val, by simp [Param.retrieve, hu, h]⟩

theorem retrieve_ok_shape {p : Param} {s : TypeMap} {v : Int}
    (h : p.retrieve s = .ok v) : s.shape p.tid = some p.tid := by
  simp only [Param.retrieve] at h
  cases hu : s p.tid with
  | none => simp [hu] at h
  | some b =>
    rw [hu] at h
    by_cases hb : b.tid = p.tid
    · simp [TypeMap.shape, hu, hb]
    · simp [hb] at h

theorem retrieveAll_ok_of_shape {ps : List Param} :
    ∀ {i j : Nat} {s : TypeMap},
      (∀ p ∈ ps, s.shape p.tid = some p.tid) →
      ∃ vals, (retrieveAll i j ps s).2 = .ok vals := by
  induction ps with
  | nil => intro i j s _; exact ⟨[], by simp [retrieveAll]⟩
  | cons p ps ih =>
    intro i j s h
    obtain ⟨v, hv⟩ := retrieve_ok_of_shape (h p (List.mem_cons_self p ps))
    obtain ⟨vals, hvals⟩ := @ih i (j + 1) s (fun q hq => h q (List.mem_cons_of_mem p hq))
    exact ⟨v :: vals, by simp [retrieveAll, hv, hvals, Except.map]⟩

theorem retrieveAll_ok_shape {ps : List Param} :
    ∀ {i j : Nat} {s : TypeMap} {vals : List Int},
      (retrieveAll i j ps s).2 = .ok vals →
      ∀ p ∈ ps, s.shape p.tid = some p.tid := by
  induction ps with
  | nil => intro i j s vals _ p hp; cases hp
  | cons q ps ih =>
    intro i j s vals h p hp
    simp only [retrieveAll] at h
    cases hq : q.retrieve s with
    | error e => rw [hq] at h; simp at h
    | ok v =>
      rw [hq] at h
      simp only [] at h
      rcases List.mem_cons.mp hp with heq | hp'
      · subst heq; exact retrieve_ok_shape hq
      · cases hrest : (retrieveAll i (j + 1) ps s).2 with
        | error e => rw [hrest] at h; simp [Except.map] at h
        | ok vals' => exact ih hrest p hp'

theorem retrieve_err_wf {p : Param} {s : TypeMap} {e : RetrieveErr}
    (hwf : s.Wf) (h : p.retrieve s = .error e) :
    e = .missing p.tid ∧ s p.tid = none := by
  simp only [Param.retrieve] at h
  cases hu : s p.tid with
  | none => rw [hu] at h; cases h; exact ⟨rfl, rfl⟩
  | some b =>
    rw [hu] at h
    have := hwf p.tid b hu
    simp [this] at h

theorem retrieveAll_err_wf {ps : List Param} :
    ∀ {i j : Nat} {s : TypeMap} {e : RetrieveErr},
      s.Wf → (retrieveAll i j ps s).2 = .error e →
      ∃ u, e = .missing u ∧ s u = none := by
  induction ps with
  | nil => intro i j s e _ h; simp [retrieveAll] at h
  | cons q ps ih =>
    intro i j s e hwf h
    simp only [retrieveAll] at h
    cases hq : q.retrieve s with
    | error e' =>
      rw [hq] at h
      simp only [] at h
      cases h
      obtain ⟨he, hu⟩ := retrieve_err_wf hwf hq
      exact ⟨q.tid, he, hu⟩
    | ok v =>
      rw [hq] at h
      simp only [] at h
      cases hrest : (retrieveAll i (j + 1) ps s).2 with
      | error e' =>
        rw [hrest] at h
        simp only [Except.map] at h
        injection h with he
        subst he
        exact @ih i (j + 1) s e' hwf hrest
      | ok vals => rw [hrest] at h; simp [Except.map] at h

/-! Event lemmas for the two phases. -/

theorem accessesAll_events {ps : List Param} :
    ∀ {i j : Nat} {m : AccessMap},
      ∀ ev ∈ (accessesAll i j ps m).1, ∃ jj, ev = Ev.decl i jj := by
  induction ps with
  | nil => intro i j m ev h; simp [accessesAll] at h
  | cons p ps ih =>
    intro i j m ev h
    simp only [accessesAll] at h
    cases hp : p.accesses m with
    | error e =>
      rw [hp] at h
      simp at h
      exact ⟨j, h⟩
    | ok m₁ =>
      rw [hp] at h
      simp only [List.mem_cons] at h
      rcases h with heq | h'
      · exact ⟨j, heq⟩
      · exact ih ev h'

theorem retrieveAll_events {ps : List Param} :
    ∀ {i j : Nat} {s : TypeMap},
      ∀ ev ∈ (retrieveAll i j ps s).1, ∃ jj v, ev = Ev.retrieve i jj v := by
  induction ps with
  | nil => intro i j s ev h; simp [retrieveAll] at h
  | cons p ps ih =>
    intro i j s ev h
    simp only [retrieveAll] at h
    cases hp : p.retrieve s with
    | error e => rw [hp] at h; simp at h
    | ok v =>
      rw [hp] at h
      simp only [List.mem_cons] at h
      rcases h with heq | h'
      · exact ⟨j, v, heq⟩
      · exact ih ev h'

/-! Lemmas about a single system's run. -/

/-- Inversion of a successful system run: the declare phase succeeded and
produced the resulting ledger, the materialization phase succeeded, and the
resulting store is the write-back of the body's outputs. -/
theorem sysRun_ok_inv {sys : Sys} {i : Nat} {s : TypeMap} {m : AccessMap}
    {s₁ : TypeMap} {m₁ : AccessMap}
    (h : (sys.run i s m).2 = .ok (s₁, m₁)) :
    (accessesAll i 0 sys.params m).2 = .ok m₁ ∧
      ∃ vals, (retrieveAll i 0 sys.params s).2 = .ok vals ∧
        s₁ = writeBack s sys.params (sys.body vals) := by
  rcases hA : accessesAll i 0 sys.params m with ⟨evs, rA⟩
  simp only [Sys.run, hA] at h
  cases rA with
  | error pr =>
    rcases pr with ⟨c, mP⟩
    simp at h
  | ok m₂ =>
    rcases hR : retrieveAll i 0 sys.params s with ⟨evs₂, rR⟩
    simp only [hR] at h
    cases rR with
    | error e => simp at h
    | ok vals =>
      have hpair : (writeBack s sys.params (sys.body vals), m₂) = (s₁, m₁) :=
        Except.ok.inj h
      have hs : writeBack s sys.params (sys.body vals) = s₁ :=
        congrArg Prod.fst hpair
      have hm : m₂ = m₁ := congrArg Prod.snd hpair
      refine ⟨?_, vals, ?_, hs.symm⟩
      · exact congrArg Except.ok hm
      · rfl

/-- A fatal error leaves the store exactly as the failing system found it. -/
theorem sysRun_error_store {sys : Sys} {i : Nat} {s : TypeMap} {m : AccessMap}
    {e : RunErr} {s' : TypeMap} {mP : AccessMap}
    (h : (sys.run i s m).2 = .error (e, s', mP)) : s' = s := by
  rcases hA : accessesAll i 0 sys.params m with ⟨evs, rA⟩
  simp only [Sys.run, hA] at h
  cases rA with
  | error pr =>
    rcases pr with ⟨c, mP'⟩
    have h3 : ((RunErr.conflict c, s, mP') : RunErr × TypeMap × AccessMap)
        = (e, s', mP) := Except.error.inj h
    exact (congrArg (fun x => x.2.1) h3).symm
  | ok m₂ =>
    rcases hR : retrieveAll i 0 sys.params s with ⟨evs₂, rR⟩
    simp only [hR] at h
    cases rR with
    | error e' =>
      have h3 : ((RunErr.retrieval e', s, m₂) : RunErr × TypeMap × AccessMap)
          = (e, s', mP) := Except.error.inj h
      exact (congrArg (fun x => x.2.1) h3).symm
    | ok vals => exact Except.noConfusion h

/-- A successful system run preserves the store's shape. -/
theorem sysRun_ok_shape {sys : Sys} {i : Nat} {s : TypeMap} {m : AccessMap}
    {s₁ : TypeMap} {m₁ : AccessMap} (h : (sys.run i s m).2 = .ok (s₁, m₁)) :
    s₁.shape = s.shape := by
  obtain ⟨-, vals, -, hs₁⟩ := sysRun_ok_inv h
  rw [hs₁]
  exact shape_writeBack sys.params (sys.body vals) s

/-- If the ledger already holds `t ↦ Write` and the system has any
parameter targeting `t`, the system's run fails with a conflict, leaving
the store untouched. -/
theorem sysRun_conflict_of_write {sys : Sys} {i : Nat} {s : TypeMap}
    {m : AccessMap} {t : TypeId} {p : Param}
    (hw : m t = some .Write) (hp : p ∈ sys.params) (ht : p.tid = t) :
    ∃ c mP, (sys.run i s m).2 = .error (.conflict c, s, mP) := by
  obtain ⟨c, mP, herr⟩ := accessesAll_conflict_of_write hw hp ht
  rcases hA : accessesAll i 0 sys.params m with ⟨evs, rA⟩
  rw [hA] at herr
  simp only [] at herr
  subst herr
  exact ⟨c, mP, by simp [Sys.run, hA]⟩

/-- When every parameter of a system is present in the store, its run
either fails with a conflict (store untouched) or succeeds. -/
theorem sysRun_cases_of_presence {sys : Sys} {i : Nat} {s : TypeMap}
    {m : AccessMap}
    (hpres : ∀ p ∈ sys.params, s.shape p.tid = some p.tid) :
    (∃ c mP, (sys.run i s m).2 = .error (.conflict c, s, mP)) ∨
      ∃ s₁ m₁, (sys.run i s m).2 = .ok (s₁, m₁) := by
  rcases hA : accessesAll i 0 sys.params m with ⟨evs, rA⟩
  cases rA with
  | error pr =>
    rcases pr with ⟨c, mP⟩
    exact Or.inl ⟨c, mP, by simp [Sys.run, hA]⟩
  | ok m₁ =>
    obtain ⟨vals, hvals⟩ := retrieveAll_ok_of_shape hpres
    rcases hR : retrieveAll i 0 sys.params s with ⟨evs₂, rR⟩
    rw [hR] at hvals
    simp only [] at hvals
    subst hvals
    exact Or.inr ⟨writeBack s sys.params (sys.body vals), m₁,
      by simp [Sys.run, hA, hR]⟩

/-- A successful run transfers to any store of the same shape: the same
ledger results, and the resulting stores again share a shape. -/
theorem sysRun_ok_transfer {sys : Sys} {i : Nat} {s s' : TypeMap}
    {m : AccessMap} {s₁ : TypeMap} {m₁ : AccessMap}
    (h : (sys.run i s m).2 = .ok (s₁, m₁)) (hsh : s'.shape = s.shape) :
    ∃ s₂, (sys.run i s' m).2 = .ok (s₂, m₁) ∧ s₂.shape = s₁.shape := by
  obtain ⟨hAcc, vals, hRet, hs₁⟩ := sysRun_ok_inv h
  have hpres : ∀ p ∈ sys.params, s'.shape p.tid = some p.tid := by
    intro p hp
    rw [hsh]
    exact retrieveAll_ok_shape hRet p hp
  obtain ⟨vals', hvals'⟩ := retrieveAll_ok_of_shape hpres
  rcases hA : accessesAll i 0 sys.params m with ⟨evs, rA⟩
  rw [hA] at hAcc
  simp only [] at hAcc
  subst hAcc
  rcases hR : retrieveAll i 0 sys.params s' with ⟨evs₂, rR⟩
  rw [hR] at hvals'
  simp only [] at hvals'
  subst hvals'
  refine ⟨writeBack s' sys.params (sys.body vals'), by simp [Sys.run, hA, hR], ?_⟩
  rw [hs₁, shape_writeBack, shape_writeBack, hsh]

/-- Every event a system run emits belongs to that system. -/
theorem sysRun_events {sys : Sys} {i : Nat} {s : TypeMap} {m : AccessMap} :
    ∀ ev ∈ (sys.run i s m).1, ev.sysIdx = i := by
  intro ev hev
  rcases hA : accessesAll i 0 sys.params m with ⟨evs, rA⟩
  have hdecl : ∀ e ∈ evs, e.sysIdx = i := by
    intro e he
    obtain ⟨jj, rfl⟩ := accessesAll_events e (by rw [hA]; exact he)
    rfl
  cases rA with
  | error pr =>
    rcases pr with ⟨c, mP⟩
    simp only [Sys.run, hA] at hev
    exact hdecl ev hev
  | ok m₁ =>
    rcases hR : retrieveAll i 0 sys.params s with ⟨evs₂, rR⟩
    have hret : ∀ e ∈ evs₂, e.sysIdx = i := by
      intro e he
      obtain ⟨jj, v, rfl⟩ := retrieveAll_events e (by rw [hR]; exact he)
      rfl
    cases rR with
    | error e =>
      simp only [Sys.run, hA, hR] at hev
      rcases List.mem_append.mp hev with h1 | h2
      · exact hdecl ev h1
      · exact hret ev h2
    | ok vals =>
      simp only [Sys.run, hA, hR] at hev
      rcases List.mem_append.mp hev with h12 | h3
      · rcases List.mem_append.mp h12 with h1 | h2
        · exact hdecl ev h1
        · exact hret ev h2
      · simp at h3
        subst h3
        rfl

/-- When a system run fails with a conflict, its whole trace consists of
declare events only: nothing was materialized and the body never ran. -/
theorem sysRun_conflict_events {sys : Sys} {i : Nat} {s : TypeMap}
    {m : AccessMap} {c : Conflict} {s' : TypeMap} {mP : AccessMap}
    (h : (sys.run i s m).2 = .error (.conflict c, s', mP)) :
    ∀ ev ∈ (sys.run i s m).1, ∃ jj, ev = Ev.decl i jj := by
  intro ev hev
  rcases hA : accessesAll i 0 sys.params m with ⟨evs, rA⟩
  cases rA with
  | error pr =>
    rcases pr with ⟨c', mP'⟩
    simp only [Sys.run, hA] at hev
    exact accessesAll_events ev (by rw [hA]; exact hev)
  | ok m₁ =>
    rcases hR : retrieveAll i 0 sys.params s with ⟨evs₂, rR⟩
    cases rR with
    | error e => simp [Sys.run, hA, hR] at h
    | ok vals => simp [Sys.run, hA, hR] at h

/-! Lemmas about the scheduler's round loop. -/

/-- Every event of a round segment starting at system index `i` belongs to
one of the systems of the segment. -/
theorem runSystems_events_range {syss : List Sys} :
    ∀ {i : Nat} {s : TypeMap} {m : AccessMap},
      ∀ ev ∈ (runSystems i syss s m).1,
        i ≤ ev.sysIdx ∧ ev.sysIdx < i + syss.length := by
  induction syss with
  | nil => intro i s m ev h; simp [runSystems] at h
  | cons sys rest ih =>
    intro i s m ev h
    rcases hS : sys.run i s m with ⟨evs, rS⟩
    simp only [runSystems, hS] at h
    have hevs : ∀ e ∈ evs, Ev.sysIdx e = i := by
      intro e he
      exact sysRun_events e (by rw [hS]; exact he)
    cases rS with
    | error err =>
      have hidx := hevs ev h
      rw [hidx]
      simp only [List.length_cons]
      omega
    | ok pr =>
      rcases pr with ⟨s₂, m₂⟩
      simp only [] at h
      rcases List.mem_append.mp h with h1 | h2
      · have := hevs ev h1
        simp only [List.length_cons]
        omega
      · have := ih ev h2
        simp only [List.length_cons]
        omega

/-- A successful round segment preserves the store's shape. -/
theorem runSystems_ok_shape {syss : List Sys} :
    ∀ {i : Nat} {s : TypeMap} {m : AccessMap} {s₁ : TypeMap} {m₁ : AccessMap},
      (runSystems i syss s m).2 = .ok (s₁, m₁) → s₁.shape = s.shape := by
  induction syss with
  | nil =>
    intro i s m s₁ m₁ h
    have hpair : (s, m) = (s₁, m₁) := Except.ok.inj h
    have hs : s = s₁ := congrArg Prod.fst hpair
    rw [← hs]
  | cons sys rest ih =>
    intro i s m s₁ m₁ h
    rcases hS : sys.run i s m with ⟨evs, rS⟩
    simp only [runSystems, hS] at h
    cases rS with
    | error err => exact Except.noConfusion h
    | ok pr =>
      rcases pr with ⟨s₂, m₂⟩
      have h' : (runSystems (i + 1) rest s₂ m₂).2 = .ok (s₁, m₁) := h
      have hS2 : (sys.run i s m).2 = .ok (s₂, m₂) := by rw [hS]
      calc s₁.shape = s₂.shape := ih h'
        _ = s.shape := sysRun_ok_shape hS2

/-- In a successful round segment, every parameter of every system was
present in the store the segment started from. -/
theorem runSystems_ok_presence {syss : List Sys} :
    ∀ {i : Nat} {s : TypeMap} {m : AccessMap} {s₁ : TypeMap} {m₁ : AccessMap},
      (runSystems i syss s m).2 = .ok (s₁, m₁) →
      ∀ sys ∈ syss, ∀ p ∈ sys.params, s.shape p.tid = some p.tid := by
  induction syss with
  | nil => intro i s m s₁ m₁ _ sys hmem; cases hmem
  | cons sys rest ih =>
    intro i s m s₁ m₁ h sys' hmem p hp
    rcases hS : sys.run i s m with ⟨evs, rS⟩
    simp only [runSystems, hS] at h
    cases rS with
    | error err => exact Except.noConfusion h
    | ok pr =>
      rcases pr with ⟨s₂, m₂⟩
      have h' : (runSystems (i + 1) rest s₂ m₂).2 = .ok (s₁, m₁) := h
      have hS2 : (sys.run i s m).2 = .ok (s₂, m₂) := by rw [hS]
      rcases List.mem_cons.mp hmem with heq | hmem'
      · subst heq
        obtain ⟨-, vals, hRet, -⟩ := sysRun_ok_inv hS2
        exact retrieveAll_ok_shape hRet p hp
      · have := ih h' sys' hmem' p hp
        rwa [sysRun_ok_shape hS2] at this

/-- A successful round segment transfers to any starting store of the same
shape, producing the same final ledger and a store of the same shape. -/
theorem runSystems_ok_transfer {syss : List Sys} :
    ∀ {i : Nat} {s s' : TypeMap} {m : AccessMap} {s₁ : TypeMap} {m₁ : AccessMap},
      (runSystems i syss s m).2 = .ok (s₁, m₁) → s'.shape = s.shape →
      ∃ s₂, (runSystems i syss s' m).2 = .ok (s₂, m₁) ∧ s₂.shape = s₁.shape := by
  induction syss with
  | nil =>
    intro i s s' m s₁ m₁ h hsh
    have hpair : (s, m) = (s₁, m₁) := Except.ok.inj h
    have hs : s = s₁ := congrArg Prod.fst hpair
    have hm : m = m₁ := congrArg Prod.snd hpair
    exact ⟨s', by simp [runSystems, hm], by rw [hsh, hs]⟩
  | cons sys rest ih =>
    intro i s s' m s₁ m₁ h hsh
    rcases hS : sys.run i s m with ⟨evs, rS⟩
    simp only [runSystems, hS] at h
    cases rS with
    | error err => exact Except.noConfusion h
    | ok pr =>
      rcases pr with ⟨s₂, m₂⟩
      have h' : (runSystems (i + 1) rest s₂ m₂).2 = .ok (s₁, m₁) := h
      have hS2 : (sys.run i s m).2 = .ok (s₂, m₂) := by rw [hS]
      obtain ⟨s₂', hrun', hsh'⟩ := sysRun_ok_transfer hS2 hsh
      obtain ⟨sFin, hFin, hshFin⟩ := ih h' hsh'
      rcases hS' : sys.run i s' m with ⟨evs', rS'⟩
      rw [hS'] at hrun'
      simp only [] at hrun'
      subst hrun'
      exact ⟨sFin, by simpa [runSystems, hS'] using hFin, hshFin⟩

/-- If the ledger holds `t ↦ Write` and some system of the segment has a
parameter targeting `t`, and every parameter of every system is present in
the store, the segment fails with a conflict. -/
theorem runSystems_conflict_of_write {syss : List Sys} :
    ∀ {i : Nat} {s : TypeMap} {m : AccessMap} {t : TypeId},
      (∀ sys ∈ syss, ∀ p ∈ sys.params, s.shape p.tid = some p.tid) →
      m t = some .Write →
      (∃ sysB ∈ syss, ∃ p ∈ sysB.params, p.tid = t) →
      ∃ c s' mP, (runSystems i syss s m).2 = .error (.conflict c, s', mP) := by
  induction syss with
  | nil => intro i s m t _ _ hex; simp at hex
  | cons sys rest ih =>
    intro i s m t hpres hw hex
    obtain ⟨sysB, hmem, p, hp, ht⟩ := hex
    rcases List.mem_cons.mp hmem with heq | hmem'
    · subst heq
      obtain ⟨c, mP, herr⟩ := @sysRun_conflict_of_write sysB i s m t p hw hp ht
      rcases hS : sysB.run i s m with ⟨evs, rS⟩
      rw [hS] at herr
      simp only [] at herr
      subst herr
      exact ⟨c, s, mP, by simp [runSystems, hS]⟩
    · rcases @sysRun_cases_of_presence sys i s m
        (hpres sys (List.mem_cons_self sys rest)) with hc | hok
      · obtain ⟨c, mP, herr⟩ := hc
        rcases hS : sys.run i s m with ⟨evs, rS⟩
        rw [hS] at herr
        simp only [] at herr
        subst herr
        exact ⟨c, s, mP, by simp [runSystems, hS]⟩
      · obtain ⟨s₂, m₂, hok2⟩ := hok
        obtain ⟨hAcc, -⟩ := sysRun_ok_inv hok2
        have hw₂ : m₂ t = some .Write := accessesAll_ok_preserves_write hAcc hw
        have hpres₂ : ∀ sysX ∈ rest, ∀ p ∈ sysX.params,
            s₂.shape p.tid = some p.tid := by
          intro sysX hX p hpX
          rw [sysRun_ok_shape hok2]
          exact hpres sysX (List.mem_cons_of_mem sys hX) p hpX
        obtain ⟨c, s', mP, herr2⟩ :=
          @ih (i + 1) s₂ m₂ t hpres₂ hw₂ ⟨sysB, hmem', p, hp, ht⟩
        rcases hS : sys.run i s m with ⟨evs, rS⟩
        rw [hS] at hok2
        simp only [] at hok2
        subst hok2
        exact ⟨c, s', mP, by simp [runSystems, hS, herr2]⟩

/-- Whenever a system list headed by a system declaring `Write` on `t` is
followed (anywhere later) by another system with an exclusive view of `t`,
and every declared parameter is present in the store, the segment fails
with a conflict. -/
theorem runSystems_double_write {pre : List Sys} :
    ∀ {i : Nat} {s : TypeMap} {m : AccessMap} {t : TypeId} {sysA : Sys}
      {rest : List Sys},
      (∀ sys ∈ pre ++ sysA :: rest, ∀ p ∈ sys.params,
        s.shape p.tid = some p.tid) →
      Param.resMut t ∈ sysA.params →
      (∃ sysB ∈ rest, Param.resMut t ∈ sysB.params) →
      ∃ c s' mP,
        (runSystems i (pre ++ sysA :: rest) s m).2 = .error (.conflict c, s', mP) := by
  induction pre with
  | nil =>
    intro i s m t sysA rest hpres hA hex
    simp only [List.nil_append] at hpres ⊢
    rcases @sysRun_cases_of_presence sysA i s m
      (hpres sysA (List.mem_cons_self sysA rest)) with hc | hok
    · obtain ⟨c, mP, herr⟩ := hc
      rcases hS : sysA.run i s m with ⟨evs, rS⟩
      rw [hS] at herr
      simp only [] at herr
      subst herr
      exact ⟨c, s, mP, by simp [runSystems, hS]⟩
    · obtain ⟨s₂, m₂, hok2⟩ := hok
      obtain ⟨hAcc, -⟩ := sysRun_ok_inv hok2
      have hw₂ : m₂ t = some .Write := accessesAll_ok_writes hAcc hA
      have hpres₂ : ∀ sysX ∈ rest, ∀ p ∈ sysX.params,
          s₂.shape p.tid = some p.tid := by
        intro sysX hX p hpX
        rw [sysRun_ok_shape hok2]
        exact hpres sysX (List.mem_cons_of_mem sysA hX) p hpX
      obtain ⟨sysB, hmemB, hB⟩ := hex
      obtain ⟨c, s', mP, herr2⟩ :=
        @runSystems_conflict_of_write rest (i + 1) s₂ m₂ t hpres₂ hw₂
          ⟨sysB, hmemB, Param.resMut t, hB, rfl⟩
      rcases hS : sysA.run i s m with ⟨evs, rS⟩
      rw [hS] at hok2
      simp only [] at hok2
      subst hok2
      exact ⟨c, s', mP, by simp [runSystems, hS, herr2]⟩
  | cons q pre' ih =>
    intro i s m t sysA rest hpres hA hex
    simp only [List.cons_append] at hpres ⊢
    rcases @sysRun_cases_of_presence q i s m
      (hpres q (List.mem_cons_self q _)) with hc | hok
    · obtain ⟨c, mP, herr⟩ := hc
      rcases hS : q.run i s m with ⟨evs, rS⟩
      rw [hS] at herr
      simp only [] at herr
      subst herr
      exact ⟨c, s, mP, by simp [runSystems, hS]⟩
    · obtain ⟨s₂, m₂, hok2⟩ := hok
      have hpres₂ : ∀ sysX ∈ pre' ++ sysA :: rest, ∀ p ∈ sysX.params,
          s₂.shape p.tid = some p.tid := by
        intro sysX hX p hpX
        rw [sysRun_ok_shape hok2]
        exact hpres sysX (List.mem_cons_of_mem q hX) p hpX
      obtain ⟨c, s', mP, herr2⟩ := @ih (i + 1) s₂ m₂ t sysA rest hpres₂ hA hex
      rcases hS : q.run i s m with ⟨evs, rS⟩
      rw [hS] at hok2
      simp only [] at hok2
      subst hok2
      exact ⟨c, s', mP, by simp [runSystems, hS, herr2]⟩

/-- A failing round segment splits into a fully successful prefix and the
failing system: the error's store is exactly the store the successful
prefix produced, and the trace is the prefix's trace followed by the
failing system's trace. -/
theorem runSystems_error_split {syss : List Sys} :
    ∀ {i : Nat} {s : TypeMap} {m : AccessMap} {tr : List Ev} {e : RunErr}
      {s' : TypeMap} {m' : AccessMap},
      runSystems i syss s m = (tr, .error (e, s', m')) →
      ∃ pre sysK suf trP trK mK,
        syss = pre ++ sysK :: suf ∧
        runSystems i pre s m = (trP, .ok (s', mK)) ∧
        sysK.run (i + pre.length) s' mK = (trK, .error (e, s', m')) ∧
        tr = trP ++ trK := by
  induction syss with
  | nil =>
    intro i s m tr e s' m' h
    have h2 : (Except.ok (s, m) : Except (RunErr × TypeMap × AccessMap) _)
        = .error (e, s', m') := congrArg Prod.snd h
    exact Except.noConfusion h2
  | cons sys rest ih =>
    intro i s m tr e s' m' h
    rcases hS : sys.run i s m with ⟨evs, rS⟩
    simp only [runSystems, hS] at h
    cases rS with
    | error err =>
      have htr : evs = tr := congrArg Prod.fst h
      have herr : (Except.error err :
            Except (RunErr × TypeMap × AccessMap) (TypeMap × AccessMap))
          = .error (e, s', m') := congrArg Prod.snd h
      have herr2 : err = (e, s', m') := Except.error.inj herr
      subst herr2
      have hstore : s' = s := sysRun_error_store (by rw [hS])
      subst hstore
      subst htr
      exact ⟨[], sys, rest, [], evs, m, rfl, rfl, hS, rfl⟩
    | ok pr =>
      rcases pr with ⟨s₂, m₂⟩
      simp only [] at h
      rcases hR : runSystems (i + 1) rest s₂ m₂ with ⟨tr₂, r₂⟩
      rw [hR] at h
      simp only [] at h
      have htr : evs ++ tr₂ = tr := congrArg Prod.fst h
      have herr : r₂ = .error (e, s', m') := congrArg Prod.snd h
      subst herr
      obtain ⟨pre', sysK, suf, trP, trK, mK, hsplit, hpre, hK, htr2⟩ := ih hR
      subst hsplit
      subst htr2
      refine ⟨sys :: pre', sysK, suf, evs ++ trP, trK, mK, rfl, ?_, ?_, ?_⟩
      · rcases hP : runSystems (i + 1) pre' s₂ m₂ with ⟨trPP, rPP⟩
        rw [hP] at hpre
        have : trPP = trP := congrArg Prod.fst hpre
        have h2 : rPP = .ok (s', mK) := congrArg Prod.snd hpre
        subst this
        subst h2
        simp [runSystems, hS, hP]
      · have hlen : i + (sys :: pre').length = (i + 1) + pre'.length := by
          simp [List.length_cons]
          omega
        rw [hlen]
        exact hK
      · subst htr
        simp

/-! Small discriminators and projections used to state concrete instances. -/

/-- At the moment a declare conflict fires, the ledger holds the offending
type identity with mode `Write`: either it was already held as `Write`, or
the conflicting exclusive declare has just overwritten it with `Write`. -/
theorem accesses_conflict_ledger {p : Param} {m : AccessMap} {c : Conflict}
    {mP : AccessMap} (h : p.accesses m = .error (c, mP)) :
    mP c.tid = some .Write := by
  cases p with
  | res t =>
    simp only [Param.accesses] at h
    cases hu : m t with
    | none => rw [hu] at h; cases h
    | some a =>
      cases a with
      | Read => rw [hu] at h; cases h
      | Write =>
        rw [hu] at h
        have hpr : (⟨t, Access.Write, Access.Read⟩, m) = (c, mP) := Except.error.inj h
        have hc : (⟨t, Access.Write, Access.Read⟩ : Conflict) = c := congrArg Prod.fst hpr
        have hm : m = mP := congrArg Prod.snd hpr
        rw [← hc, ← hm]
        exact hu
  | resMut t =>
    simp only [Param.accesses] at h
    cases hu : m t with
    | none => rw [hu] at h; cases h
    | some a =>
      rw [hu] at h
      have hpr : (⟨t, a, Access.Write⟩, m.insert t .Write) = (c, mP) := Except.error.inj h
      have hc : (⟨t, a, Access.Write⟩ : Conflict) = c := congrArg Prod.fst hpr
      have hm : m.insert t .Write = mP := congrArg Prod.snd hpr
      rw [← hc, ← hm]
      simp [AccessMap.insert]

/-- The declare phase's conflict state also holds the offending type as
`Write`. -/
theorem accessesAll_conflict_ledger {ps : List Param} :
    ∀ {i j : Nat} {m : AccessMap} {c : Conflict} {mP : AccessMap},
      (accessesAll i j ps m).2 = .error (c, mP) → mP c.tid = some .Write := by
  induction ps with
  | nil => intro i j m c mP h; simp [accessesAll] at h
  | cons p ps ih =>
    intro i j m c mP h
    simp only [accessesAll] at h
    cases hp : p.accesses m with
    | error e =>
      rw [hp] at h
      simp only [] at h
      have : e = (c, mP) := Except.error.inj h
      subst this
      exact accesses_conflict_ledger hp
    | ok m₁ =>
      rw [hp] at h
      simp only [] at h
      exact ih h

/-- Inversion: a conflict failure of a system run comes from its declare
phase, with the same diagnostic and panic ledger. -/
theorem sysRun_conflict_inv {sys : Sys} {i : Nat} {s : TypeMap}
    {m : AccessMap} {c : Conflict} {s' : TypeMap} {mP : AccessMap}
    (h : (sys.run i s m).2 = .error (.conflict c, s', mP)) :
    (accessesAll i 0 sys.params m).2 = .error (c, mP) := by
  rcases hA : accessesAll i 0 sys.params m with ⟨evs, rA⟩
  simp only [Sys.run, hA] at h
  cases rA with
  | error pr =>
    rcases pr with ⟨c', mP'⟩
    have hpr : ((RunErr.conflict c', s, mP') : RunErr × TypeMap × AccessMap)
        = (.conflict c, s', mP) := Except.error.inj h
    have hc : RunErr.conflict c' = RunErr.conflict c := congrArg Prod.fst hpr
    have hmp : mP' = mP := congrArg (fun x => x.2.2) hpr
    have hc2 : c' = c := by injection hc
    rw [hc2, hmp] at hA ⊢
  | ok m₁ =>
    rcases hR : retrieveAll i 0 sys.params s with ⟨evs₂, rR⟩
    simp only [hR] at h
    cases rR with
    | error e =>
      have hpr : ((RunErr.retrieval e, s, m₁) : RunErr × TypeMap × AccessMap)
          = (.conflict c, s', mP) := Except.error.inj h
      have he : RunErr.retrieval e = RunErr.conflict c := congrArg Prod.fst hpr
      exact RunErr.noConfusion he
    | ok vals => exact Except.noConfusion h

/-- Inversion: a retrieval failure of a system run comes from its
materialization phase. -/
theorem sysRun_retrieval_inv {sys : Sys} {i : Nat} {s : TypeMap}
    {m : AccessMap} {e : RetrieveErr} {s' : TypeMap} {mP : AccessMap}
    (h : (sys.run i s m).2 = .error (.retrieval e, s', mP)) :
    (retrieveAll i 0 sys.params s).2 = .error e := by
  rcases hA : accessesAll i 0 sys.params m with ⟨evs, rA⟩
  simp only [Sys.run, hA] at h
  cases rA with
  | error pr =>
    rcases pr with ⟨c', mP'⟩
    have hpr : ((RunErr.conflict c', s, mP') : RunErr × TypeMap × AccessMap)
        = (.retrieval e, s', mP) := Except.error.inj h
    have he : RunErr.conflict c' = RunErr.retrieval e := congrArg Prod.fst hpr
    exact RunErr.noConfusion he
  | ok m₁ =>
    rcases hR : retrieveAll i 0 sys.params s with ⟨evs₂, rR⟩
    simp only [hR] at h
    cases rR with
    | error e' =>
      have hpr : ((RunErr.retrieval e', s, m₁) : RunErr × TypeMap × AccessMap)
          = (.retrieval e, s', mP) := Except.error.inj h
      have he : RunErr.retrieval e' = RunErr.retrieval e := congrArg Prod.fst hpr
      have : e' = e := by injection he
      rw [← this]
    | ok vals => exact Except.noConfusion h

/-- Registration keeps the store well typed: the inserted box's dynamic
type identity is the key it is inserted under. -/
theorem wf_addResource {sch : Scheduler} (h : sch.resources.Wf)
    (t : TypeId) (v : Int) : (sch.addResource t v).resources.Wf := by
  intro u b hb
  simp only [Scheduler.addResource, TypeMap.insert] at hb
  by_cases he : u = t
  · subst he
    simp at hb
    rw [← hb]
  · exact h u b (by simpa [he] using hb)

theorem wf_applyAdds (adds : List (TypeId × Int)) :
    ∀ {sch : Scheduler}, sch.resources.Wf → (applyAdds adds sch).resources.Wf := by
  induction adds with
  | nil => intro sch h; exact h
  | cons a rest ih =>
    intro sch h
    rcases a with ⟨t, v⟩
    exact ih (wf_addResource h t v)

theorem wf_empty : TypeMap.empty.Wf := by
  intro t b hb
  exact Option.noConfusion hb

/-! Claim theorems. -/

/-- C1: for every invocation of the ledger's record operation
(`SystemParam::accesses`) with target type `p.tid` and mode `p.mode`:
if the type is absent, the mode is recorded and the call succeeds; if it is
present with `Read` and the requested mode is `Read`, the ledger is
unchanged and the call succeeds; in every other case (present `Read`
meeting `Write`, or present `Write` meeting anything) the call fails
fatally with a diagnostic naming the type and the two conflicting modes —
and it fails in no other case. -/
theorem record_access_semantics (p : Param) (m : AccessMap) :
    (m p.tid = none → p.accesses m = .ok (m.insert p.tid p.mode)) ∧
    (m p.tid = some .Read → p.mode = .Read → p.accesses m = .ok m) ∧
    (∀ held, m p.tid = some held → (held = .Write ∨ p.mode = .Write) →
      ∃ mP, p.accesses m = .error (⟨p.tid, held, p.mode⟩, mP)) ∧
    (∀ c mP, p.accesses m = .error (c, mP) →
      c.tid = p.tid ∧ c.req = p.mode ∧ m p.tid = some c.held ∧
        (c.held = .Write ∨ p.mode = .Write)) := by
  cases p with
  | res t =>
    refine ⟨?_, ?_, ?_, ?_⟩
    · intro h
      simp [Param.accesses, Param.tid, Param.mode] at h ⊢
      simp [h]
    · intro h _
      simp [Param.tid] at h
      simp [Param.accesses, h]
    · intro held h hcase
      simp [Param.tid] at h
      rcases hcase with hW | hW
      · subst hW
        exact ⟨m, by simp [Param.accesses, Param.mode, Param.tid, h]⟩
      · simp [Param.mode] at hW
    · intro c mP h
      simp only [Param.accesses] at h
      cases hu : m t with
      | none => rw [hu] at h; cases h
      | some a =>
        cases a with
        | Read => rw [hu] at h; cases h
        | Write =>
          rw [hu] at h
          have hpr : (⟨t, Access.Write, Access.Read⟩, m) = (c, mP) :=
            Except.error.inj h
          have hc : (⟨t, Access.Write, Access.Read⟩ : Conflict) = c :=
            congrArg Prod.fst hpr
          rw [← hc]
          exact ⟨rfl, rfl, hu, Or.inl rfl⟩
  | resMut t =>
    refine ⟨?_, ?_, ?_, ?_⟩
    · intro h
      simp [Param.tid] at h
      simp [Param.accesses, Param.mode, Param.tid, h]
    · intro _ hmode
      simp [Param.mode] at hmode
    · intro held h hcase
      simp [Param.tid] at h
      exact ⟨m.insert t .Write, by simp [Param.accesses, Param.mode, Param.tid, h]⟩
    · intro c mP h
      simp only [Param.accesses] at h
      cases hu : m t with
      | none => rw [hu] at h; cases h
      | some a =>
        rw [hu] at h
        have hpr : (⟨t, a, Access.Write⟩, m.insert t .Write) = (c, mP) :=
          Except.error.inj h
        have hc : (⟨t, a, Access.Write⟩ : Conflict) = c := congrArg Prod.fst hpr
        rw [← hc]
        exact ⟨rfl, rfl, hu, Or.inr rfl⟩

/-- Witness for C1: concrete record calls exercising the absent,
`Read`-meets-`Read`, and `Read`-meets-`Write` cases. -/
theorem record_access_semantics_witness :
    Param.accesses (.res 0) AccessMap.empty
        = .ok (AccessMap.empty.insert 0 .Read) ∧
    Param.accesses (.res 1) (AccessMap.empty.insert 1 .Read)
        = .ok (AccessMap.empty.insert 1 .Read) ∧
    ∃ mP, Param.accesses (.resMut 2) (AccessMap.empty.insert 2 .Read)
        = .error (⟨2, .Read, .Write⟩, mP) :=
  ⟨(record_access_semantics (.res 0) AccessMap.empty).1 rfl,
    (record_access_semantics (.res 1) (AccessMap.empty.insert 1 .Read)).2.1
      (by simp [AccessMap.insert, Param.tid]) rfl,
    (record_access_semantics (.resMut 2) (AccessMap.empty.insert 2 .Read)).2.2.1
      .Read (by simp [AccessMap.insert, Param.tid]) (Or.inr rfl)⟩

/-- C7: inserting a resource of type `t` twice leaves the store holding the
second value under `t` and nothing else changed; every subsequent read of
`t` — directly, or through a shared view in a later round — observes the
second value and never the first. -/
theorem add_resource_last_write_wins (sch : Scheduler) (t : TypeId)
    (v₁ v₂ : Int) (rb : List Int → List Int) :
    ((sch.addResource t v₁).addResource t v₂).resources t = some ⟨t, v₂⟩ ∧
    Param.retrieve (.res t)
        ((sch.addResource t v₁).addResource t v₂).resources = .ok v₂ ∧
    (v₁ ≠ v₂ → Param.retrieve (.res t)
        ((sch.addResource t v₁).addResource t v₂).resources ≠ .ok v₁) ∧
    (∀ u, u ≠ t →
      ((sch.addResource t v₁).addResource t v₂).resources u = sch.resources u) ∧
    ∃ tr m', runSystems 0 [⟨[Param.res t], rb⟩]
        ((sch.addResource t v₁).addResource t v₂).resources AccessMap.empty
        = (tr, .ok (((sch.addResource t v₁).addResource t v₂).resources, m')) ∧
      Ev.callBody 0 [v₂] ∈ tr := by
  have hR : ((sch.addResource t v₁).addResource t v₂).resources t
      = some ⟨t, v₂⟩ := by
    simp [Scheduler.addResource, TypeMap.insert]
  have hRok : Param.retrieve (.res t)
      ((sch.addResource t v₁).addResource t v₂).resources = .ok v₂ := by
    simp [Param.retrieve, Param.tid, hR]
  refine ⟨hR, hRok, ?_, ?_, ?_⟩
  · intro hne hcontra
    rw [hRok] at hcontra
    have : v₂ = v₁ := Except.ok.inj hcontra
    exact hne this.symm
  · intro u hu
    simp [Scheduler.addResource, TypeMap.insert, hu]
  · refine ⟨[.decl 0 0, .retrieve 0 0 v₂, .callBody 0 [v₂]],
      AccessMap.empty.insert t .Read, ?_, by simp⟩
    have hacc : accessesAll 0 0 [Param.res t] AccessMap.empty
        = ([.decl 0 0], .ok (AccessMap.empty.insert t .Read)) := by
      simp [accessesAll, Param.accesses, AccessMap.empty]
    have hret : retrieveAll 0 0 [Param.res t]
        ((sch.addResource t v₁).addResource t v₂).resources
        = ([.retrieve 0 0 v₂], .ok [v₂]) := by
      simp [retrieveAll, hRok, Except.map]
    have hwb : writeBack ((sch.addResource t v₁).addResource t v₂).resources
        [Param.res t] (rb [v₂])
        = ((sch.addResource t v₁).addResource t v₂).resources := by
      cases rb [v₂] with
      | nil => simp [writeBack]
      | cons w ws => simp [writeBack]
    simp [runSystems, Sys.run, hacc, hret, hwb]

/-- Witness for C7: adding `5` then `9` under type identity `0`; the read
observes `9`, never `5`. -/
theorem add_resource_last_write_wins_witness :
    (5 : Int) ≠ 9 ∧
    Param.retrieve (.res 0)
        (((⟨[], TypeMap.empty, AccessMap.empty⟩ : Scheduler).addResource 0 5).addResource
          0 9).resources ≠ .ok 5 :=
  ⟨by decide,
    (add_resource_last_write_wins ⟨[], TypeMap.empty, AccessMap.empty⟩ 0 5 9
        (fun _ => [])).2.2.1 (by decide)⟩

/-- C10: in every store reachable by a sequence of `add_resource` calls
from an empty store, the type-erased value stored under a key has dynamic
type identity equal to that key, so the checked downcast inside `retrieve`
(shared or exclusive) always succeeds when the entry exists: the
identity-mismatch branch is unreachable. -/
theorem store_entries_well_typed (adds : List (TypeId × Int)) (syss : List Sys)
    (m : AccessMap) (t : TypeId) (b : BoxAny)
    (h : (applyAdds adds ⟨syss, TypeMap.empty, m⟩).resources t = some b) :
    b.tid = t ∧
    Param.retrieve (.res t)
        (applyAdds adds ⟨syss, TypeMap.empty, m⟩).resources = .ok b.val ∧
    Param.retrieve (.resMut t)
        (applyAdds adds ⟨syss, TypeMap.empty, m⟩).resources = .ok b.val := by
  have hwf : (applyAdds adds ⟨syss, TypeMap.empty, m⟩).resources.Wf :=
    wf_applyAdds adds wf_empty
  have htid : b.tid = t := hwf t b h
  refine ⟨htid, ?_, ?_⟩
  · simp [Param.retrieve, Param.tid, h, htid]
  · simp [Param.retrieve, Param.tid, h, htid]

/-- Witness for C10: after adding `5` then `9` under type identity `0`,
the entry under key `0` holds dynamic type `0` and both views retrieve it. -/
theorem store_entries_well_typed_witness :
    (⟨0, 9⟩ : BoxAny).tid = 0 ∧
    Param.retrieve (.res 0)
        (applyAdds [(0, 5), (0, 9)] ⟨[], TypeMap.empty, AccessMap.empty⟩).resources
        = .ok (BoxAny.mk 0 9).val ∧
    Param.retrieve (.resMut 0)
        (applyAdds [(0, 5), (0, 9)] ⟨[], TypeMap.empty, AccessMap.empty⟩).resources
        = .ok (BoxAny.mk 0 9).val :=
  store_entries_well_typed [(0, 5), (0, 9)] [] AccessMap.empty 0 ⟨0, 9⟩ (by decide)

/-- C3: if a conflict is detected at some system's declaration step, the
round aborts immediately: there is a system index `i` such that every
event of the round's trace either belongs to an earlier system or is a
declare event of system `i` itself — so the conflicting system's body and
materializations never ran, and no later system ran anything at all. -/
theorem conflict_abort_trace (sch : Scheduler) (c : Conflict) (sch' : Scheduler)
    (h : (Scheduler.run sch).2 = .error (.conflict c, sch')) :
    ∃ i, i < sch.systems.length ∧
      ∀ ev ∈ (Scheduler.run sch).1, ev.sysIdx < i ∨ ∃ j, ev = Ev.decl i j := by
  rcases hRS : runSystems 0 sch.systems sch.resources sch.accesses with ⟨tr, r⟩
  cases r with
  | ok pr =>
    rcases pr with ⟨s, m⟩
    simp only [Scheduler.run, hRS] at h
    exact Except.noConfusion h
  | error err =>
    rcases err with ⟨e, s', m'⟩
    simp only [Scheduler.run, hRS] at h
    have hpr : ((e, ⟨sch.systems, s', m'⟩) : RunErr × Scheduler)
        = (.conflict c, sch') := Except.error.inj h
    have he : e = .conflict c := congrArg Prod.fst hpr
    subst he
    obtain ⟨pre, sysK, suf, trP, trK, mK, hsplit, hpre, hK, htr⟩ :=
      runSystems_error_split hRS
    refine ⟨pre.length, ?_, ?_⟩
    · rw [hsplit]
      simp only [List.length_append, List.length_cons]
      omega
    · intro ev hev
      have h1 : (Scheduler.run sch).1 = tr := by simp [Scheduler.run, hRS]
      rw [h1, htr] at hev
      rcases List.mem_append.mp hev with hP | hKm
      · left
        have hPfst : (runSystems 0 pre sch.resources sch.accesses).1 = trP := by
          rw [hpre]
        have := runSystems_events_range ev (by rw [hPfst]; exact hP)
        omega
      · right
        have hKfst : (sysK.run (0 + pre.length) s' mK).1 = trK := by rw [hK]
        have hK2 : (sysK.run (0 + pre.length) s' mK).2
            = .error (.conflict c, s', m') := by rw [hK]
        obtain ⟨j, hj⟩ := sysRun_conflict_events hK2 ev (by rw [hKfst]; exact hKm)
        rw [Nat.zero_add] at hj
        exact ⟨j, hj⟩

/-- Witness for C3: the double-write round aborts at its second system. -/
theorem conflict_abort_trace_witness :
    ∃ i, i < cexDoubleWrite.systems.length ∧
      ∀ ev ∈ (Scheduler.run cexDoubleWrite).1,
        ev.sysIdx < i ∨ ∃ j, ev = Ev.decl i j :=
  conflict_abort_trace cexDoubleWrite (conflictOf (Scheduler.run cexDoubleWrite))
    (errSchedOf (Scheduler.run cexDoubleWrite)) rfl

/-- C4 counterexample: in a successful two-system round, the first system's
materialization (and body) run before the second system's declare step, so
it is not the case that the declare step runs for all parameters of all
systems in the round before any materialization. -/
theorem declare_all_first_refuted :
    okB (Scheduler.run twoReadersRound).2 = true ∧
      declsBeforeRetrieves (Scheduler.run twoReadersRound).1 = false := by
  decide

/-- C4 amended: the phase separation holds per system, not per round:
within each system, the declare step runs for all of that system's
parameters before any of its materializations (its trace is declare events
followed by non-declare events), and a conflict in a system's declare
phase aborts before that system has materialized anything (its whole trace
is declare events). -/
theorem declare_before_materialize_per_system (sys : Sys) (i : Nat)
    (s : TypeMap) (m : AccessMap) :
    (∃ a b, (sys.run i s m).1 = a ++ b ∧
      (∀ ev ∈ a, ∃ j, ev = Ev.decl i j) ∧ (∀ ev ∈ b, ev.isDecl = false)) ∧
    (∀ c s' mP, (sys.run i s m).2 = .error (.conflict c, s', mP) →
      ∀ ev ∈ (sys.run i s m).1, ∃ j, ev = Ev.decl i j) := by
  constructor
  · rcases hA : accessesAll i 0 sys.params m with ⟨evs, rA⟩
    have hevs : ∀ ev ∈ evs, ∃ j, ev = Ev.decl i j := fun ev h =>
      accessesAll_events ev (by rw [hA]; exact h)
    cases rA with
    | error pr =>
      rcases pr with ⟨c, mP⟩
      exact ⟨evs, [], by simp [Sys.run, hA], hevs, by simp⟩
    | ok m₁ =>
      rcases hR : retrieveAll i 0 sys.params s with ⟨evs₂, rR⟩
      have hevs₂ : ∀ ev ∈ evs₂, ev.isDecl = false := by
        intro ev h
        obtain ⟨jj, v, rfl⟩ := retrieveAll_events ev (by rw [hR]; exact h)
        rfl
      cases rR with
      | error e => exact ⟨evs, evs₂, by simp [Sys.run, hA, hR], hevs, hevs₂⟩
      | ok vals =>
        refine ⟨evs, evs₂ ++ [Ev.callBody i vals],
          by simp [Sys.run, hA, hR], hevs, ?_⟩
        intro ev h
        rcases List.mem_append.mp h with h1 | h2
        · exact hevs₂ ev h1
        · simp at h2; subst h2; rfl
  · intro c s' mP h
    exact sysRun_conflict_events h

/-- Witness for the amended C4: a system conflicting at its declare step
emits only declare events. -/
theorem declare_before_materialize_per_system_witness :
    ∃ j, Ev.decl 1 0 = Ev.decl 1 j :=
  (declare_before_materialize_per_system ⟨[Param.resMut 0], fun vs => vs⟩ 1
      oneCellStore heldWriteLedger).2
    ⟨0, .Write, .Write⟩ oneCellStore (heldWriteLedger.insert 0 .Write) rfl
    (Ev.decl 1 0) (by decide)

/-- C5: after a conflict-free round (started, as every round is, with an
empty ledger) the access ledger is empty again, the system list is
unchanged, and running the same systems a second time succeeds as well:
no access recorded in round 1 is visible in round 2. -/
theorem ledger_cleared_after_ok_round (sch sch₁ : Scheduler)
    (hm : sch.accesses = AccessMap.empty)
    (h : (Scheduler.run sch).2 = .ok sch₁) :
    sch₁.accesses = AccessMap.empty ∧ sch₁.systems = sch.systems ∧
      ∃ sch₂, (Scheduler.run sch₁).2 = .ok sch₂ := by
  rcases hRS : runSystems 0 sch.systems sch.resources sch.accesses with ⟨tr, r⟩
  cases r with
  | error err =>
    rcases err with ⟨e, s', m'⟩
    simp only [Scheduler.run, hRS] at h
    exact Except.noConfusion h
  | ok pr =>
    rcases pr with ⟨s, m⟩
    simp only [Scheduler.run, hRS] at h
    have hsch : (⟨sch.systems, s, AccessMap.empty⟩ : Scheduler) = sch₁ :=
      Except.ok.inj h
    subst hsch
    refine ⟨rfl, rfl, ?_⟩
    have hOk : (runSystems 0 sch.systems sch.resources sch.accesses).2
        = .ok (s, m) := by rw [hRS]
    rw [hm] at hOk
    have hsh : s.shape = sch.resources.shape := runSystems_ok_shape hOk
    obtain ⟨s₂, h₂, -⟩ := runSystems_ok_transfer hOk hsh
    rcases hRS₂ : runSystems 0 sch.systems s AccessMap.empty with ⟨tr₂, r₂⟩
    rw [hRS₂] at h₂
    simp only [] at h₂
    subst h₂
    exact ⟨⟨sch.systems, s₂, AccessMap.empty⟩, by simp [Scheduler.run, hRS₂]⟩

/-- Witness for C5: the reader round leaves an empty ledger and can be run
again successfully. -/
theorem ledger_cleared_after_ok_round_witness :
    (errSchedOf (Scheduler.run readerRound)).accesses = AccessMap.empty ∧
    (errSchedOf (Scheduler.run readerRound)).systems = readerRound.systems ∧
    ∃ sch₂, (Scheduler.run (errSchedOf (Scheduler.run readerRound))).2
        = .ok sch₂ :=
  ledger_cleared_after_ok_round readerRound
    (errSchedOf (Scheduler.run readerRound)) rfl rfl

/-- C2: whenever two distinct systems of a round each declare `Write`
access to the same resource type (in any order, with any other systems in
between), and every declared parameter is present in the store (so no
missing-resource failure preempts it), the round fails fatally with a
conflict error: the ledger persists across all systems of the round, so
the first system's `Write` is still recorded when the second declares. -/
theorem whole_round_double_write_conflicts (sch : Scheduler)
    (pre mid post : List Sys) (sysA sysB : Sys) (t : TypeId)
    (hsys : sch.systems = pre ++ sysA :: (mid ++ sysB :: post))
    (hA : Param.resMut t ∈ sysA.params) (hB : Param.resMut t ∈ sysB.params)
    (hpres : ∀ sys ∈ sch.systems, ∀ p ∈ sys.params,
      sch.resources.shape p.tid = some p.tid) :
    ∃ c sch', (Scheduler.run sch).2 = .error (.conflict c, sch') := by
  have hex : ∃ x ∈ mid ++ sysB :: post, Param.resMut t ∈ x.params :=
    ⟨sysB, List.mem_append_right mid (List.mem_cons_self sysB post), hB⟩
  rw [hsys] at hpres
  obtain ⟨c, s', mP, herr⟩ :=
    @runSystems_double_write pre 0 sch.resources sch.accesses t sysA
      (mid ++ sysB :: post) hpres hA hex
  rw [← hsys] at herr
  rcases hRS : runSystems 0 sch.systems sch.resources sch.accesses with ⟨tr, r⟩
  rw [hRS] at herr
  simp only [] at herr
  subst herr
  exact ⟨c, ⟨sch.systems, s', mP⟩, by simp [Scheduler.run, hRS]⟩

/-- Witness for C2: the double-write round fails with a conflict. -/
theorem whole_round_double_write_conflicts_witness :
    ∃ c sch', (Scheduler.run cexDoubleWrite).2 = .error (.conflict c, sch') :=
  whole_round_double_write_conflicts cexDoubleWrite [] [] []
    ⟨[Param.resMut 0], fun vs => vs.map (fun v => v + 1)⟩
    ⟨[Param.resMut 0], fun vs => vs⟩ 0 rfl (by decide) (by decide) (by decide)

/-- C8: if any system of the round has a parameter targeting a type never
inserted into a (well-typed) store, the round never succeeds — the system
is not skipped and no default is produced — and every failure it can
produce is either a conflict or a fatal missing-resource retrieval error
for an absent type (never an identity mismatch). -/
theorem missing_resource_round_fails (sch : Scheduler) (sys : Sys) (p : Param)
    (hwf : sch.resources.Wf) (hsys : sys ∈ sch.systems) (hp : p ∈ sys.params)
    (hmiss : sch.resources p.tid = none) :
    (∀ sch₁, (Scheduler.run sch).2 ≠ .ok sch₁) ∧
    (∀ e sch', (Scheduler.run sch).2 = .error (e, sch') →
      (∃ c, e = .conflict c) ∨
        ∃ u, e = .retrieval (.missing u) ∧ sch.resources u = none) := by
  constructor
  · intro sch₁ hok
    rcases hRS : runSystems 0 sch.systems sch.resources sch.accesses with ⟨tr, r⟩
    cases r with
    | error err =>
      rcases err with ⟨e, s', m'⟩
      simp only [Scheduler.run, hRS] at hok
      exact Except.noConfusion hok
    | ok pr =>
      rcases pr with ⟨s, m⟩
      have hOk : (runSystems 0 sch.systems sch.resources sch.accesses).2
          = .ok (s, m) := by rw [hRS]
      have hsh := runSystems_ok_presence hOk sys hsys p hp
      rw [TypeMap.shape] at hsh
      simp [hmiss] at hsh
  · intro e sch' herr
    rcases hRS : runSystems 0 sch.systems sch.resources sch.accesses with ⟨tr, r⟩
    cases r with
    | ok pr =>
      rcases pr with ⟨s, m⟩
      simp only [Scheduler.run, hRS] at herr
      exact Except.noConfusion herr
    | error err =>
      rcases err with ⟨e₀, s₀, m₀⟩
      simp only [Scheduler.run, hRS] at herr
      have hpr : ((e₀, ⟨sch.systems, s₀, m₀⟩) : RunErr × Scheduler) = (e, sch') :=
        Except.error.inj herr
      have he : e₀ = e := congrArg Prod.fst hpr
      subst he
      obtain ⟨preL, sysK, suf, trP, trK, mK, hsplit, hpre, hK, -⟩ :=
        runSystems_error_split hRS
      cases e₀ with
      | conflict c => exact Or.inl ⟨c, rfl⟩
      | retrieval re =>
        have hK2 : (sysK.run (0 + preL.length) s₀ mK).2
            = .error (.retrieval re, s₀, m₀) := by rw [hK]
        have hRet := sysRun_retrieval_inv hK2
        have hpreOk : (runSystems 0 preL sch.resources sch.accesses).2
            = .ok (s₀, mK) := by rw [hpre]
        have hwf₀ : s₀.Wf := wf_of_shape_eq (runSystems_ok_shape hpreOk) hwf
        obtain ⟨u, hu, hnone⟩ := retrieveAll_err_wf hwf₀ hRet
        refine Or.inr ⟨u, by rw [hu], ?_⟩
        have hsh : s₀.shape u = sch.resources.shape u := by
          rw [runSystems_ok_shape hpreOk]
        rw [TypeMap.shape, TypeMap.shape, hnone] at hsh
        exact Option.map_eq_none.mp hsh.symm

/-- Witness for C8: the round with an unregistered type fails with a
missing-resource error (or conflict), never success. -/
theorem missing_resource_round_fails_witness :
    (∃ c, runErrOf (Scheduler.run missingResRound) = .conflict c) ∨
      ∃ u, runErrOf (Scheduler.run missingResRound) = .retrieval (.missing u) ∧
        missingResRound.resources u = none :=
  (missing_resource_round_fails missingResRound ⟨[Param.res 0], fun _ => []⟩
      (Param.res 0) wf_empty (List.mem_cons_self _ _) (by decide) rfl).2
    (runErrOf (Scheduler.run missingResRound))
    (errSchedOf (Scheduler.run missingResRound)) rfl

/-- C9: a round aborted by a fatal error performs no rollback: the
scheduler the abort leaves behind keeps the system list, its store is
exactly the store produced by fully executing the systems before the
failing one (all their exclusive-view mutations retained), its ledger is
exactly the failing system's panic-time ledger (the clear step is
skipped), and on a conflict the offending type is still recorded — as
`Write` — in that ledger. -/
theorem abort_preserves_state (sch : Scheduler) (tr : List Ev) (e : RunErr)
    (sch' : Scheduler) (h : Scheduler.run sch = (tr, .error (e, sch'))) :
    sch'.systems = sch.systems ∧
    (∃ pre sysK suf trP trK mK,
      sch.systems = pre ++ sysK :: suf ∧
      runSystems 0 pre sch.resources sch.accesses
        = (trP, .ok (sch'.resources, mK)) ∧
      sysK.run pre.length sch'.resources mK
        = (trK, .error (e, sch'.resources, sch'.accesses)) ∧
      tr = trP ++ trK) ∧
    (∀ c, e = .conflict c → sch'.accesses c.tid = some .Write) := by
  rcases hRS : runSystems 0 sch.systems sch.resources sch.accesses with ⟨tr₀, r⟩
  cases r with
  | ok pr =>
    rcases pr with ⟨s, m⟩
    simp only [Scheduler.run, hRS] at h
    exact Except.noConfusion (congrArg Prod.snd h)
  | error err =>
    rcases err with ⟨e₀, s₀, m₀⟩
    simp only [Scheduler.run, hRS] at h
    have htr : tr₀ = tr := congrArg Prod.fst h
    have hpr : ((e₀, ⟨sch.systems, s₀, m₀⟩) : RunErr × Scheduler) = (e, sch') :=
      Except.error.inj (congrArg Prod.snd h)
    have he : e₀ = e := congrArg Prod.fst hpr
    have hsch : (⟨sch.systems, s₀, m₀⟩ : Scheduler) = sch' := congrArg Prod.snd hpr
    subst htr
    subst he
    subst hsch
    refine ⟨rfl, ?_, ?_⟩
    · obtain ⟨pre, sysK, suf, trP, trK, mK, hsplit, hpre, hK, htr2⟩ :=
        runSystems_error_split hRS
      rw [Nat.zero_add] at hK
      exact ⟨pre, sysK, suf, trP, trK, mK, hsplit, hpre, hK, htr2⟩
    · intro c hc
      subst hc
      obtain ⟨pre, sysK, suf, trP, trK, mK, -, -, hK, -⟩ :=
        runSystems_error_split hRS
      have hK2 : (sysK.run (0 + pre.length) s₀ mK).2
          = .error (.conflict c, s₀, m₀) := by rw [hK]
      exact accessesAll_conflict_ledger (sysRun_conflict_inv hK2)

/-- Witness for C9: applied to the aborted double-write round. -/
theorem abort_preserves_state_witness :
    (errSchedOf (Scheduler.run cexDoubleWrite)).systems = cexDoubleWrite.systems ∧
    (∃ pre sysK suf trP trK mK,
      cexDoubleWrite.systems = pre ++ sysK :: suf ∧
      runSystems 0 pre cexDoubleWrite.resources cexDoubleWrite.accesses
        = (trP, .ok ((errSchedOf (Scheduler.run cexDoubleWrite)).resources, mK)) ∧
      sysK.run pre.length (errSchedOf (Scheduler.run cexDoubleWrite)).resources mK
        = (trK, .error (runErrOf (Scheduler.run cexDoubleWrite),
            (errSchedOf (Scheduler.run cexDoubleWrite)).resources,
            (errSchedOf (Scheduler.run cexDoubleWrite)).accesses)) ∧
      (Scheduler.run cexDoubleWrite).1 = trP ++ trK) ∧
    (∀ c, runErrOf (Scheduler.run cexDoubleWrite) = .conflict c →
      (errSchedOf (Scheduler.run cexDoubleWrite)).accesses c.tid = some .Write) :=
  abort_preserves_state cexDoubleWrite (Scheduler.run cexDoubleWrite).1
    (runErrOf (Scheduler.run cexDoubleWrite))
    (errSchedOf (Scheduler.run cexDoubleWrite)) rfl

/-- C6 counterexample: a system that increments an Int resource through an
exclusive view, followed in registration order by a system reading it
through a shared view, does NOT observe the incremented value within the
same round: the whole-round ledger rejects the round with a conflict and
the reader's body is never invoked at all. -/
theorem same_round_write_then_read_conflicts :
    conflictedB (Scheduler.run writeThenReadRound).2 = true ∧
      (Scheduler.run writeThenReadRound).1.all
        (fun ev => !(Ev.isBodyOf 1 ev)) = true := by
  decide

/-- C6 amended: systems do run strictly sequentially in registration order
and exclusive-view mutations persist in the store — a writer round leaves
the value updated, and a shared view of that type materialized afterwards
(e.g. by a round run later) observes the written value — but within a
single round the shared view following the exclusive view of the same type
is rejected: the round fails with a conflict naming that type, its error
state carries the store with the writer's mutation already applied, and
the reader's body never runs. -/
theorem sequential_visibility_amended (t : TypeId) (v : Int) (f : Int → Int)
    (s : TypeMap) (rb : List Int → List Int) (hs : s t = some ⟨t, v⟩) :
    (∃ tr m', runSystems 0 [⟨[Param.resMut t], fun vs => vs.map f⟩]
        s AccessMap.empty = (tr, .ok (s.setVal t (f v), m'))) ∧
    (s.setVal t (f v)) t = some ⟨t, f v⟩ ∧
    (∃ tr₂ m₂, runSystems 0 [⟨[Param.res t], rb⟩] (s.setVal t (f v))
        AccessMap.empty = (tr₂, .ok (s.setVal t (f v), m₂)) ∧
      Ev.callBody 0 [f v] ∈ tr₂) ∧
    ∃ tr c mP, runSystems 0
        [⟨[Param.resMut t], fun vs => vs.map f⟩, ⟨[Param.res t], rb⟩]
        s AccessMap.empty
        = (tr, .error (.conflict c, s.setVal t (f v), mP)) ∧ c.tid = t ∧
      tr.all (fun ev => !(Ev.isBodyOf 1 ev)) = true := by
  have hacc : accessesAll 0 0 [Param.resMut t] AccessMap.empty
      = ([.decl 0 0], .ok (AccessMap.empty.insert t .Write)) := by
    simp [accessesAll, Param.accesses, AccessMap.empty]
  have hret : retrieveAll 0 0 [Param.resMut t] s
      = ([.retrieve 0 0 v], .ok [v]) := by
    simp [retrieveAll, Param.retrieve, Param.tid, hs, Except.map]
  have hwb : writeBack s [Param.resMut t] [f v] = s.setVal t (f v) := by
    simp [writeBack]
  have hw : Sys.run ⟨[Param.resMut t], fun vs => vs.map f⟩ 0 s AccessMap.empty
      = ([.decl 0 0, .retrieve 0 0 v, .callBody 0 [v]],
        .ok (s.setVal t (f v), AccessMap.empty.insert t .Write)) := by
    simp [Sys.run, hacc, hret, hwb]
  have hset : (s.setVal t (f v)) t = some ⟨t, f v⟩ := by
    simp [TypeMap.setVal, hs]
  refine ⟨?_, hset, ?_, ?_⟩
  · exact ⟨[.decl 0 0, .retrieve 0 0 v, .callBody 0 [v]],
      AccessMap.empty.insert t .Write, by simp [runSystems, hw]⟩
  · have haccR : accessesAll 0 0 [Param.res t] AccessMap.empty
        = ([.decl 0 0], .ok (AccessMap.empty.insert t .Read)) := by
      simp [accessesAll, Param.accesses, AccessMap.empty]
    have hretR : retrieveAll 0 0 [Param.res t] (s.setVal t (f v))
        = ([.retrieve 0 0 (f v)], .ok [f v]) := by
      simp [retrieveAll, Param.retrieve, Param.tid, hset, Except.map]
    have hwbR : writeBack (s.setVal t (f v)) [Param.res t] (rb [f v])
        = s.setVal t (f v) := by
      cases rb [f v] with
      | nil => simp [writeBack]
      | cons w ws => simp [writeBack]
    refine ⟨[.decl 0 0, .retrieve 0 0 (f v), .callBody 0 [f v]],
      AccessMap.empty.insert t .Read, ?_, by simp⟩
    simp [runSystems, Sys.run, haccR, hretR, hwbR]
  · have haccC : accessesAll 1 0 [Param.res t] (AccessMap.empty.insert t .Write)
        = ([.decl 1 0],
          .error (⟨t, .Write, .Read⟩, AccessMap.empty.insert t .Write)) := by
      simp [accessesAll, Param.accesses, AccessMap.insert]
    have hr : Sys.run ⟨[Param.res t], rb⟩ 1 (s.setVal t (f v))
        (AccessMap.empty.insert t .Write)
        = ([.decl 1 0], .error (.conflict ⟨t, .Write, .Read⟩,
            s.setVal t (f v), AccessMap.empty.insert t .Write)) := by
      simp [Sys.run, haccC]
    refine ⟨[.decl 0 0, .retrieve 0 0 v, .callBody 0 [v], .decl 1 0],
      ⟨t, .Write, .Read⟩, AccessMap.empty.insert t .Write, ?_, rfl, ?_⟩
    · simp [runSystems, hw, hr]
    · simp [Ev.isBodyOf]

/-- Witness for the amended C6: incrementing `7` under type identity `0`
and reading it back in a later round observes `8`. -/
theorem sequential_visibility_amended_witness :
    (∃ tr m', runSystems 0 [⟨[Param.resMut 0], fun vs => vs.map (fun v => v + 1)⟩]
        (TypeMap.empty.insert 0 ⟨0, 7⟩) AccessMap.empty
        = (tr, .ok ((TypeMap.empty.insert 0 ⟨0, 7⟩).setVal 0 (7 + 1), m'))) ∧
    ((TypeMap.empty.insert 0 ⟨0, 7⟩).setVal 0 (7 + 1)) 0 = some ⟨0, 7 + 1⟩ ∧
    (∃ tr₂ m₂, runSystems 0 [⟨[Param.res 0], fun _ => []⟩]
        ((TypeMap.empty.insert 0 ⟨0, 7⟩).setVal 0 (7 + 1)) AccessMap.empty
        = (tr₂, .ok ((TypeMap.empty.insert 0 ⟨0, 7⟩).setVal 0 (7 + 1), m₂)) ∧
      Ev.callBody 0 [7 + 1] ∈ tr₂) ∧
    ∃ tr c mP, runSystems 0
        [⟨[Param.resMut 0], fun vs => vs.map (fun v => v + 1)⟩,
          ⟨[Param.res 0], fun _ => []⟩]
        (TypeMap.empty.insert 0 ⟨0, 7⟩) AccessMap.empty
        = (tr, .error (.conflict c, (TypeMap.empty.insert 0 ⟨0, 7⟩).setVal 0 (7 + 1), mP)) ∧
      c.tid = 0 ∧ tr.all (fun ev => !(Ev.isBodyOf 1 ev)) = true :=
  sequential_visibility_amended 0 7 (fun v => v + 1)
    (TypeMap.empty.insert 0 ⟨0, 7⟩) (fun _ => []) rfl

end TrackingAccess
